import Mathlib

/-!
# Verification of the preferential-attachment follow-network simulator

A shallow embedding of `model.py`: the entity model (`CC`, `User`), the
follow graph (`Network`), and the orchestrator (`Platform`).  Python lists
and numpy arrays become Lean `List`s (numpy's integer-valued float counters
become `ℕ`); `np.inf` (used when `max_follows` is falsy, i.e. `0`) becomes
the `none` case of an `Option ℤ`.  The numpy random generator is modelled
by an oracle `recs : ℕ → ℕ` giving the creator id drawn for each user,
together with a `gen_offset` counter recording how many samples the shared
generator has produced so far (one `gen.choice(c_ids, num_users, p=probs)`
call consumes `num_users` samples).  The probability vector that
`Platform.recommend` computes is embedded separately as `recommendProbs`
over `ℝ`, with real powers for the float exponents `alphas`.
-/

/-- `class CC`: a content creator carries only its id (lower id = better rank). -/
structure CC where
  id : ℕ
deriving DecidableEq, Repr, Inhabited

/-- `class User`: an id plus the mutable `best_followed_CC` reference
(`None` initially). -/
structure User where
  id : ℕ
  best_followed_CC : Option CC
deriving DecidableEq, Repr, Inhabited

/-- `User.decide_follow`: follow `c` iff no creator is followed yet or `c`
is strictly better (smaller id) than the best followed so far. -/
def User.decide_follow (u : User) (c : CC) : Bool :=
  match u.best_followed_CC with
  | none => true
  | some b => decide (b.id > c.id)

/-- `class Network`: the follow graph.  `max_follows = none` models the
`np.inf` that the constructor substitutes when the `max_follows` argument
is falsy (zero); a nonzero argument, even a negative one, is kept as is. -/
structure Network where
  users : List User
  CCs : List CC
  num_followers : List ℕ
  num_followees : List ℕ
  adjacency_list : List (List ℕ)
  max_follows : Option ℤ
deriving DecidableEq, Repr

/-- `Network.__init__`. -/
def Network.init (u_ids c_ids : List ℕ) (max_follows : ℤ) : Network :=
  { users := u_ids.map (fun i => { id := i, best_followed_CC := none }),
    CCs := c_ids.map (fun i => { id := i }),
    num_followers := List.replicate c_ids.length 0,
    num_followees := List.replicate u_ids.length 0,
    adjacency_list := List.replicate u_ids.length [],
    max_follows := if max_follows = 0 then none else some max_follows }

/-- `Network.is_following`: membership test `c.id in adjacency_list[u.id]`. -/
def Network.is_following (net : Network) (u : User) (c : CC) : Bool :=
  decide (c.id ∈ net.adjacency_list.getD u.id [])

/-- The cap test `self.num_followees[u.id] <= self.max_follows`
(`x <= np.inf` is always true). -/
def Network.capOk (net : Network) (u : User) : Bool :=
  match net.max_follows with
  | none => true
  | some m => decide ((net.num_followees.getD u.id 0 : ℤ) ≤ m)

/-- `Network.follow`: record that user `users[u_id]` follows creator
`CCs[c_id]`, if the edge is new, the decision rule approves and the cap
test passes. -/
def Network.follow (net : Network) (u_id c_id : ℕ) : Network :=
  let u := net.users.getD u_id default
  let c := net.CCs.getD c_id default
  if ¬ net.is_following u c then
    if u.decide_follow c ∧ net.capOk u then
      { net with
        adjacency_list :=
          net.adjacency_list.set u.id (net.adjacency_list.getD u.id [] ++ [c_id]),
        num_followers := net.num_followers.set c.id (net.num_followers.getD c.id 0 + 1),
        num_followees := net.num_followees.set u.id (net.num_followees.getD u.id 0 + 1),
        users := net.users.set u_id { u with best_followed_CC := some c } }
    else net
  else net

/-- `class Platform`: the orchestrator state.  `gen_offset` counts the
samples consumed from the shared random generator (the `gen` object);
`average_pos_best_CC` and the evolution-snapshot dictionary are omitted:
the former is never written by the core, and the latter receives only
copies of the state recorded here, never feeding back into it. -/
structure Platform where
  num_users : ℕ
  num_CCs : ℕ
  alphas : List ℝ
  num_alphas : ℕ
  network : Network
  users_found_best : List ℤ
  id_searching_users : List ℕ
  timestep : ℕ
  evolution : ℕ
  gen_offset : ℕ

/-- `Platform.__init__`: store the parameters, build a fresh network over
`range(num_users)` and `range(num_CCs)`, all `users_found_best` at the
sentinel `-1`, every user searching, `timestep = 0`. -/
def Platform.initState (num_users num_CCs : ℕ) (alphas : List ℝ) (evolution : ℕ)
    (max_follows : ℤ) : Platform :=
  { num_users := num_users,
    num_CCs := num_CCs,
    alphas := alphas,
    num_alphas := alphas.length,
    network := Network.init (List.range num_users) (List.range num_CCs) max_follows,
    users_found_best := List.replicate num_users (-1),
    id_searching_users := List.range num_users,
    timestep := 0,
    evolution := evolution,
    gen_offset := 0 }

/-- The body of `Platform.__init__` contains no `raise` and no `assert`,
so as a fallible operation it always succeeds, whatever the parameters. -/
def Platform.initE (num_users num_CCs : ℕ) (alphas : List ℝ) (evolution : ℕ)
    (max_follows : ℤ) : Except String Platform :=
  Except.ok (Platform.initState num_users num_CCs alphas evolution max_follows)

/-- The loop body of step 2 of `Platform.iterate`, for one searching user:
`follow(u_id, recs[u_id])`, then mark `users_found_best[u_id] := t` when
the recommended creator is number 0. -/
def Platform.searchStep (recs : ℕ → ℕ) (t : ℕ) (acc : Network × List ℤ) (u_id : ℕ) :
    Network × List ℤ :=
  let c_id := recs u_id
  let net := acc.1.follow u_id c_id
  let found := if c_id = 0 then acc.2.set u_id (t : ℤ) else acc.2
  (net, found)

/-- `Platform.iterate` up to its return value: increment the timestep,
consume `num_users` samples from the generator (the `recommend()` call,
whose drawn ids are the oracle `recs`), run the follow loop over the
searching users, and re-filter `id_searching_users`
(`Platform.update_searching_users`). -/
def Platform.iterateStep (p : Platform) (recs : ℕ → ℕ) : Platform :=
  let t := p.timestep + 1
  let res := p.id_searching_users.foldl (Platform.searchStep recs t)
    (p.network, p.users_found_best)
  { p with
    timestep := t,
    gen_offset := p.gen_offset + p.num_users,
    network := res.1,
    users_found_best := res.2,
    id_searching_users :=
      p.id_searching_users.filter (fun i => decide (res.2.getD i (-1) = -1)) }

/-- `Platform.check_convergence`: `len(id_searching_users) == 0`. -/
def Platform.check_convergence (p : Platform) : Bool :=
  decide (p.id_searching_users.length = 0)

/-- `Platform.iterate`, with its boolean return value. -/
def Platform.iterate (p : Platform) (recs : ℕ → ℕ) : Platform × Bool :=
  let p1 := p.iterateStep recs
  (p1, p1.check_convergence)

/-- A run of several iterations, one recommendation oracle per timestep. -/
def Platform.iterates (p : Platform) (rl : List (ℕ → ℕ)) : Platform :=
  rl.foldl Platform.iterateStep p

/-- The network component of the searching-user loop of `iterate`: the
sequence of `follow` calls it performs. -/
def Network.followFold (net : Network) (recs : ℕ → ℕ) (l : List ℕ) : Network :=
  l.foldl (fun n u => n.follow u (recs u)) net

/-- The `users_found_best` component of the searching-user loop of
`iterate`: write the timestep `t` at each user whose drawn creator is 0. -/
def foundFold (recs : ℕ → ℕ) (t : ℕ) (l : List ℕ) (found : List ℤ) : List ℤ :=
  l.foldl (fun f u => if recs u = 0 then f.set u (t : ℤ) else f) found

/-- One unnormalized weight vector of `Platform.recommend`:
`np.power(num_followers + np.ones(num_CCs), alpha)`, elementwise, with the
float exponent embedded as a real power (`Real.rpow`). -/
noncomputable def powWeights (num_followers : List ℕ) (alpha : ℝ) : List ℝ :=
  num_followers.map (fun (n : ℕ) => ((n : ℝ) + 1) ^ alpha)

/-- `prob_choice /= sum(prob_choice)`: divide every entry by the vector sum. -/
noncomputable def normalizeVec (l : List ℝ) : List ℝ :=
  l.map (fun x => x / l.sum)

/-- Elementwise vector addition (`probs += ...`). -/
noncomputable def addVec (v w : List ℝ) : List ℝ :=
  List.zipWith (fun a b => a + b) v w

/-- The probability vector built by the loop of `Platform.recommend`: start
from `np.zeros(num_CCs)` (`num_followers` has length `num_CCs`) and, for
each alpha, add the normalized weight vector divided by `num_alphas`. -/
noncomputable def recommendProbs (num_followers : List ℕ) (alphas : List ℝ) : List ℝ :=
  alphas.foldl
    (fun probs alpha =>
      addVec probs ((normalizeVec (powWeights num_followers alpha)).map
        (fun x => x / alphas.length)))
    (List.replicate num_followers.length 0)

/-- The distribution as the spec words it: for each creator, the uniform
average over all alphas of the normalized weight-vector entries. -/
noncomputable def recommendProbsSpec (num_followers : List ℕ) (alphas : List ℝ) : List ℝ :=
  (List.range num_followers.length).map (fun c =>
    (alphas.map (fun a => (normalizeVec (powWeights num_followers a)).getD c 0)).sum
      / alphas.length)

/-- The id of the best creator followed by the user at position `v`, if any. -/
def Network.bestIdAt (net : Network) (v : ℕ) : Option ℕ :=
  (net.users.getD v default).best_followed_CC.map CC.id

/-- Best-id evolution in one operation: unchanged, or set for the first
time, or replaced by a strictly smaller id. -/
def BestStepRel (new old : Option ℕ) : Prop :=
  new = old ∨ ∃ c, new = some c ∧ (old = none ∨ ∃ b, old = some b ∧ c < b)

/-- Structural and counting invariants of a network whose users and
creators carry the ids `0, ..., n_u - 1` and `0, ..., n_c - 1` in order —
exactly the networks the `Platform` constructs. -/
structure Network.Inv (n_u n_c : ℕ) (net : Network) : Prop where
  users_len : net.users.length = n_u
  ccs_len : net.CCs.length = n_c
  adj_len : net.adjacency_list.length = n_u
  fee_len : net.num_followees.length = n_u
  fer_len : net.num_followers.length = n_c
  user_id : ∀ i, i < n_u → (net.users.getD i default).id = i
  cc_id : ∀ j, j < n_c → (net.CCs.getD j default).id = j
  adj_mem : ∀ u, u < n_u → ∀ x ∈ net.adjacency_list.getD u [], x < n_c
  fer_count : ∀ c, c < n_c →
    net.num_followers.getD c 0 = net.adjacency_list.countP (fun l => decide (c ∈ l))
  fee_count : ∀ u, u < n_u →
    net.num_followees.getD u 0 = (net.adjacency_list.getD u []).length
  best_none : ∀ u, u < n_u → (net.users.getD u default).best_followed_CC = none →
    net.adjacency_list.getD u [] = []
  best_some : ∀ u, u < n_u → ∀ cc,
    (net.users.getD u default).best_followed_CC = some cc →
    (net.adjacency_list.getD u []).getLast? = some cc.id ∧
      List.Chain' (fun a b => b < a) (net.adjacency_list.getD u [])

/-- Platform-level invariants: the network invariant plus the searching
set being made of in-range user ids still at the `-1` sentinel. -/
structure Platform.Inv (p : Platform) : Prop where
  net : Network.Inv p.num_users p.num_CCs p.network
  searching_lt : ∀ u ∈ p.id_searching_users, u < p.num_users
  searching_unset : ∀ u ∈ p.id_searching_users, p.users_found_best.getD u (-1) = -1
  found_len : p.users_found_best.length = p.num_users

/-- The platform states a run can visit: a fresh construction, followed by
any interleaving of direct `Network.follow` calls on in-range ids and
`iterate()` steps whose drawn recommendations are creators of the
platform (`gen.choice` samples from `c_ids`). -/
inductive Platform.Reachable : Platform → Prop
  | init (num_users num_CCs : ℕ) (alphas : List ℝ) (evolution : ℕ) (max_follows : ℤ) :
      Platform.Reachable (Platform.initState num_users num_CCs alphas evolution max_follows)
  | follow (p : Platform) (u c : ℕ) : Platform.Reachable p →
      u < p.num_users → c < p.num_CCs →
      Platform.Reachable { p with network := p.network.follow u c }
  | step (p : Platform) (recs : ℕ → ℕ) : Platform.Reachable p →
      (∀ i, recs i < p.num_CCs) →
      Platform.Reachable (p.iterateStep recs)

/-! ## List helper lemmas -/

/-- `getD` after `set` at the same in-range index. -/
theorem getD_set_eq_of_lt {α : Type} (l : List α) (i : ℕ) (x d : α) (h : i < l.length) :
    (l.set i x).getD i d = x := by
  rw [List.getD_eq_getElem?_getD, List.getElem?_set_self h, Option.getD_some]

/-- `getD` after `set` at a different index. -/
theorem getD_set_of_ne {α : Type} (l : List α) {i j : ℕ} (x d : α) (h : i ≠ j) :
    (l.set i x).getD j d = l.getD j d := by
  rw [List.getD_eq_getElem?_getD, List.getElem?_set_ne h, ← List.getD_eq_getElem?_getD]

/-- `getD` on a replicated list, in range. -/
theorem getD_replicate_of_lt {α : Type} (n i : ℕ) (a d : α) (h : i < n) :
    (List.replicate n a).getD i d = a := by
  induction n generalizing i with
  | zero => omega
  | succ m ih =>
    cases i with
    | zero => simp [List.replicate_succ]
    | succ k => simpa [List.replicate_succ] using ih k (by omega)

/-- `getD` on a `map` over a `range`, in range. -/
theorem getD_map_range {α : Type} (f : ℕ → α) (n i : ℕ) (d : α) (h : i < n) :
    ((List.range n).map f).getD i d = f i := by
  rw [List.getD_eq_getElem?_getD, List.getElem?_map, List.getElem?_range h]
  rfl

/-- Replacing an entry on which the predicate was false by one on which it
is true raises `countP` by exactly one. -/
theorem countP_set_of_true {α : Type} (p : α → Bool) (l : List α) (i : ℕ) (x d : α)
    (hi : i < l.length) (hold : p (l.getD i d) = false) (hnew : p x = true) :
    (l.set i x).countP p = l.countP p + 1 := by
  induction l generalizing i with
  | nil => simp at hi
  | cons a t ih =>
    cases i with
    | zero =>
      simp only [List.getD_cons_zero] at hold
      simp [List.countP_cons, hold, hnew]
    | succ k =>
      simp only [List.getD_cons_succ] at hold
      simp only [List.set_cons_succ, List.countP_cons, ih k (by simpa using hi) hold]
      omega

/-- Replacing an entry by one with the same predicate value leaves
`countP` unchanged. -/
theorem countP_set_congr {α : Type} (p : α → Bool) (l : List α) (i : ℕ) (x d : α)
    (h : p x = p (l.getD i d)) : (l.set i x).countP p = l.countP p := by
  induction l generalizing i with
  | nil => simp
  | cons a t ih =>
    cases i with
    | zero =>
      simp only [List.getD_cons_zero] at h
      simp [List.countP_cons, h]
    | succ k =>
      simp only [List.getD_cons_succ] at h
      simp [List.set_cons_succ, List.countP_cons, ih k h]

/-- The last element of a list is a member. -/
theorem mem_of_getLast?_eq {α : Type} (l : List α) (a : α) (h : l.getLast? = some a) :
    a ∈ l := by
  induction l with
  | nil => simp at h
  | cons b t ih =>
    cases t with
    | nil => simp_all
    | cons c s =>
      rw [List.getLast?_cons_cons] at h
      exact List.mem_cons_of_mem b (ih h)

/-- In a strictly decreasing list, the last element is a lower bound. -/
theorem chain'_gt_getLast?_le (l : List ℕ) (hc : List.Chain' (fun a b => b < a) l)
    (m : ℕ) (hm : l.getLast? = some m) : ∀ x ∈ l, m ≤ x := by
  induction l with
  | nil => simp
  | cons a t ih =>
    rw [List.chain'_cons'] at hc
    intro x hx
    cases t with
    | nil =>
      simp only [List.getLast?_singleton, Option.some_inj] at hm
      simp only [List.mem_singleton] at hx
      omega
    | cons c s =>
      rw [List.getLast?_cons_cons] at hm
      have hrec := ih hc.2 hm
      rcases List.mem_cons.mp hx with rfl | hx2
      · have hca : c < x := hc.1 c rfl
        have : m ≤ c := hrec c (List.mem_cons_self c s)
        omega
      · exact hrec x hx2

/-! ## The follow operation, case by case -/

/-- The decision rule, as a proposition. -/
theorem User.decide_follow_eq_true (u : User) (c : CC) :
    u.decide_follow c = true ↔
      u.best_followed_CC = none ∨ ∃ b, u.best_followed_CC = some b ∧ c.id < b.id := by
  cases h : u.best_followed_CC with
  | none => simp [User.decide_follow, h]
  | some b => simp [User.decide_follow, h]

/-- `follow` in the case where all three guards pass. -/
theorem Network.follow_eq_update (net : Network) (u_id c_id : ℕ)
    (h1 : ¬ net.is_following (net.users.getD u_id default) (net.CCs.getD c_id default) = true)
    (h2 : (net.users.getD u_id default).decide_follow (net.CCs.getD c_id default) = true)
    (h3 : net.capOk (net.users.getD u_id default) = true) :
    net.follow u_id c_id =
      { net with
        adjacency_list := net.adjacency_list.set (net.users.getD u_id default).id
          (net.adjacency_list.getD (net.users.getD u_id default).id []
            ++ [c_id]),
        num_followers := net.num_followers.set (net.CCs.getD c_id default).id
          (net.num_followers.getD (net.CCs.getD c_id default).id 0 + 1),
        num_followees := net.num_followees.set (net.users.getD u_id default).id
          (net.num_followees.getD (net.users.getD u_id default).id 0 + 1),
        users := net.users.set u_id
          { net.users.getD u_id default with
            best_followed_CC := some (net.CCs.getD c_id default) } } := by
  simp only [Network.follow]
  rw [if_pos h1, if_pos ⟨h2, h3⟩]

/-- `follow` is a no-op when the user already follows the creator. -/
theorem Network.follow_eq_self_of_following (net : Network) (u_id c_id : ℕ)
    (h1 : net.is_following (net.users.getD u_id default) (net.CCs.getD c_id default) = true) :
    net.follow u_id c_id = net := by
  simp only [Network.follow]
  rw [if_neg (not_not_intro h1)]

/-- `follow` is a no-op when the decision rule or the cap test fails. -/
theorem Network.follow_eq_self_of_blocked (net : Network) (u_id c_id : ℕ)
    (h2 : ¬ ((net.users.getD u_id default).decide_follow (net.CCs.getD c_id default) = true
      ∧ net.capOk (net.users.getD u_id default) = true)) :
    net.follow u_id c_id = net := by
  by_cases h1 : net.is_following (net.users.getD u_id default) (net.CCs.getD c_id default) = true
  · simp only [Network.follow]
    rw [if_neg (not_not_intro h1)]
  · simp only [Network.follow]
    rw [if_pos h1, if_neg h2]

/-! ## Decomposing the searching-user loop -/

/-- One loop-body application, as a pair. -/
theorem Platform.searchStep_eq (recs : ℕ → ℕ) (t : ℕ) (net : Network) (found : List ℤ)
    (u_id : ℕ) :
    Platform.searchStep recs t (net, found) u_id =
      (net.follow u_id (recs u_id),
        if recs u_id = 0 then found.set u_id (t : ℤ) else found) := rfl

/-- The network component of the loop is the fold of the follow calls. -/
theorem searchFold_fst (recs : ℕ → ℕ) (t : ℕ) (l : List ℕ) :
    ∀ (net : Network) (found : List ℤ),
      (l.foldl (Platform.searchStep recs t) (net, found)).1 = net.followFold recs l := by
  induction l with
  | nil => intro net found; rfl
  | cons a l ih =>
    intro net found
    rw [List.foldl_cons, Platform.searchStep_eq, Network.followFold, List.foldl_cons]
    exact ih _ _

/-- The `users_found_best` component of the loop is the fold of the
timestep writes. -/
theorem searchFold_snd (recs : ℕ → ℕ) (t : ℕ) (l : List ℕ) :
    ∀ (net : Network) (found : List ℤ),
      (l.foldl (Platform.searchStep recs t) (net, found)).2 = foundFold recs t l found := by
  induction l with
  | nil => intro net found; rfl
  | cons a l ih =>
    intro net found
    rw [List.foldl_cons, Platform.searchStep_eq, foundFold, List.foldl_cons]
    exact ih _ _

/-- The timestep writes preserve the length of `users_found_best`. -/
theorem foundFold_length (recs : ℕ → ℕ) (t : ℕ) (l : List ℕ) :
    ∀ found : List ℤ, (foundFold recs t l found).length = found.length := by
  induction l with
  | nil => intro found; rfl
  | cons a l ih =>
    intro found
    rw [foundFold, List.foldl_cons, ← foundFold]
    rw [ih]
    by_cases h : recs a = 0 <;> simp [h]

/-- A user outside the processed list keeps its `users_found_best` entry. -/
theorem foundFold_getD_of_not_mem (recs : ℕ → ℕ) (t : ℕ) (l : List ℕ) (u : ℕ)
    (hu : u ∉ l) : ∀ found : List ℤ,
      (foundFold recs t l found).getD u (-1) = found.getD u (-1) := by
  induction l with
  | nil => intro found; rfl
  | cons a l ih =>
    intro found
    rw [foundFold, List.foldl_cons, ← foundFold]
    rw [ih (fun h => hu (List.mem_cons_of_mem a h))]
    by_cases h : recs a = 0
    · have hne : a ≠ u := by
        intro h2
        subst h2
        exact hu (List.mem_cons_self a l)
      rw [if_pos h, getD_set_of_ne _ _ _ hne]
    · rw [if_neg h]

/-- An entry already holding the written timestep keeps it through the loop. -/
theorem foundFold_getD_stable (recs : ℕ → ℕ) (t : ℕ) (l : List ℕ) (u : ℕ) :
    ∀ found : List ℤ, found.getD u (-1) = (t : ℤ) →
      (foundFold recs t l found).getD u (-1) = (t : ℤ) := by
  induction l with
  | nil => intro found h; exact h
  | cons a l ih =>
    intro found h
    rw [foundFold, List.foldl_cons, ← foundFold]
    apply ih
    by_cases ha : recs a = 0
    · rw [if_pos ha]
      by_cases hau : a = u
      · subst hau
        by_cases hlen : a < found.length
        · exact getD_set_eq_of_lt _ _ _ _ hlen
        · rw [List.set_eq_of_length_le (by omega)]
          exact h
      · rw [getD_set_of_ne _ _ _ hau]
        exact h
    · rw [if_neg ha]
      exact h

/-- A searching user whose drawn creator is 0 gets the timestep written. -/
theorem foundFold_getD_of_mem (recs : ℕ → ℕ) (t : ℕ) (l : List ℕ) (u : ℕ)
    (hmem : u ∈ l) (hrec : recs u = 0) : ∀ found : List ℤ, u < found.length →
      (foundFold recs t l found).getD u (-1) = (t : ℤ) := by
  induction l with
  | nil => simp at hmem
  | cons a l ih =>
    intro found hlen
    rw [foundFold, List.foldl_cons, ← foundFold]
    by_cases hau : u = a
    · subst hau
      rw [if_pos hrec]
      exact foundFold_getD_stable recs t l u _ (getD_set_eq_of_lt _ _ _ _ hlen)
    · have hmem2 : u ∈ l := by
        rcases List.mem_cons.mp hmem with h | h
        · exact absurd h hau
        · exact h
      by_cases ha : recs a = 0
      · rw [if_pos ha]
        exact ih hmem2 _ (by rw [List.length_set]; exact hlen)
      · rw [if_neg ha]
        exact ih hmem2 _ hlen

/-! ## Monotone improvement of the best followed creator -/

/-- `BestStepRel` is reflexive. -/
theorem BestStepRel.refl (a : Option ℕ) : BestStepRel a a := Or.inl rfl

/-- `BestStepRel` is transitive. -/
theorem BestStepRel.trans {a b c : Option ℕ} (h1 : BestStepRel b a) (h2 : BestStepRel c b) :
    BestStepRel c a := by
  rcases h2 with rfl | ⟨x, rfl, hx⟩
  · exact h1
  · rcases hx with rfl | ⟨y, rfl, hxy⟩
    · rcases h1 with rfl | ⟨z, hz, _⟩
      · exact Or.inr ⟨x, rfl, Or.inl rfl⟩
      · exact absurd hz (by simp)
    · rcases h1 with rfl | ⟨z, hz, hz2⟩
      · exact Or.inr ⟨x, rfl, Or.inr ⟨y, rfl, hxy⟩⟩
      · have hyz : y = z := Option.some_inj.mp hz
        subst hyz
        rcases hz2 with ha | ⟨w, hw, hw2⟩
        · exact Or.inr ⟨x, rfl, Or.inl ha⟩
        · exact Or.inr ⟨x, rfl, Or.inr ⟨w, hw, by omega⟩⟩

/-- A single `follow` call moves every user's best id along `BestStepRel`:
it is untouched, set for the first time, or strictly improved. -/
theorem Network.follow_bestStep (net : Network) (u_id c_id v : ℕ) :
    BestStepRel ((net.follow u_id c_id).bestIdAt v) (net.bestIdAt v) := by
  by_cases h1 : net.is_following (net.users.getD u_id default) (net.CCs.getD c_id default) = true
  · rw [Network.follow_eq_self_of_following net u_id c_id h1]
    exact BestStepRel.refl _
  by_cases h2 : (net.users.getD u_id default).decide_follow (net.CCs.getD c_id default) = true
      ∧ net.capOk (net.users.getD u_id default) = true
  · rw [Network.follow_eq_update net u_id c_id h1 h2.1 h2.2]
    simp only [Network.bestIdAt]
    by_cases hv : v = u_id
    · subst hv
      by_cases hlen : v < net.users.length
      · rw [getD_set_eq_of_lt _ _ _ _ hlen]
        rcases (User.decide_follow_eq_true _ _).mp h2.1 with hb | ⟨b, hb, hlt⟩
        · exact Or.inr ⟨(net.CCs.getD c_id default).id, rfl, Or.inl (by rw [hb]; rfl)⟩
        · exact Or.inr ⟨(net.CCs.getD c_id default).id, rfl,
            Or.inr ⟨b.id, by rw [hb]; rfl, hlt⟩⟩
      · rw [List.set_eq_of_length_le (by omega)]
        exact BestStepRel.refl _
    · rw [getD_set_of_ne _ _ _ (fun h => hv h.symm)]
      exact BestStepRel.refl _
  · rw [Network.follow_eq_self_of_blocked net u_id c_id h2]
    exact BestStepRel.refl _

/-- The whole searching-user loop moves every best id along `BestStepRel`. -/
theorem Network.followFold_bestStep (recs : ℕ → ℕ) (l : List ℕ) (v : ℕ) :
    ∀ net : Network, BestStepRel ((net.followFold recs l).bestIdAt v) (net.bestIdAt v) := by
  induction l with
  | nil => intro net; exact BestStepRel.refl _
  | cons a l ih =>
    intro net
    rw [Network.followFold, List.foldl_cons, ← Network.followFold]
    exact BestStepRel.trans (net.follow_bestStep a (recs a) v) (ih _)

/-! ## The network invariant: establishment and preservation -/

/-- A freshly constructed network over `range` id lists satisfies the
invariant. -/
theorem Network.init_inv (n_u n_c : ℕ) (mf : ℤ) :
    Network.Inv n_u n_c (Network.init (List.range n_u) (List.range n_c) mf) := by
  constructor
  · simp [Network.init]
  · simp [Network.init]
  · simp [Network.init]
  · simp [Network.init]
  · simp [Network.init]
  · intro i hi
    simp only [Network.init]
    rw [getD_map_range _ _ _ _ (by simpa using hi)]
  · intro j hj
    simp only [Network.init]
    rw [getD_map_range _ _ _ _ (by simpa using hj)]
  · intro u hu x hx
    simp only [Network.init] at hx
    rw [getD_replicate_of_lt _ _ _ _ (by simpa using hu)] at hx
    simp at hx
  · intro c hc
    simp only [Network.init]
    rw [getD_replicate_of_lt _ _ _ _ (by simpa using hc), List.countP_replicate]
    simp
  · intro u hu
    simp only [Network.init]
    rw [getD_replicate_of_lt _ _ _ _ (by simpa using hu),
      getD_replicate_of_lt _ _ _ _ (by simpa using hu)]
    rfl
  · intro u hu _
    simp only [Network.init]
    rw [getD_replicate_of_lt _ _ _ _ (by simpa using hu)]
  · intro u hu cc hcc
    simp only [Network.init] at hcc
    rw [getD_map_range _ _ _ _ (by simpa using hu)] at hcc
    simp at hcc

/-- A `follow` call with in-range arguments preserves the network
invariant. -/
theorem Network.Inv.follow_preserved {n_u n_c : ℕ} {net : Network}
    (inv : Network.Inv n_u n_c net) (u_id c_id : ℕ) (hu : u_id < n_u) (hc : c_id < n_c) :
    Network.Inv n_u n_c (net.follow u_id c_id) := by
  have hid : (net.users.getD u_id default).id = u_id := inv.user_id u_id hu
  have hcid : (net.CCs.getD c_id default).id = c_id := inv.cc_id c_id hc
  have hul : u_id < net.users.length := by rw [inv.users_len]; exact hu
  have hal : u_id < net.adjacency_list.length := by rw [inv.adj_len]; exact hu
  have hfeel : u_id < net.num_followees.length := by rw [inv.fee_len]; exact hu
  have hferl : c_id < net.num_followers.length := by rw [inv.fer_len]; exact hc
  by_cases h1 : net.is_following (net.users.getD u_id default) (net.CCs.getD c_id default) = true
  · rw [Network.follow_eq_self_of_following net u_id c_id h1]
    exact inv
  by_cases h2 : (net.users.getD u_id default).decide_follow (net.CCs.getD c_id default) = true
      ∧ net.capOk (net.users.getD u_id default) = true
  swap
  · rw [Network.follow_eq_self_of_blocked net u_id c_id h2]
    exact inv
  have hnm : c_id ∉ net.adjacency_list.getD u_id [] := by
    intro hmem
    apply h1
    simp only [Network.is_following, hid, hcid]
    exact decide_eq_true hmem
  rw [Network.follow_eq_update net u_id c_id h1 h2.1 h2.2, hid, hcid]
  constructor
  · show (net.users.set u_id _).length = n_u
    rw [List.length_set]
    exact inv.users_len
  · exact inv.ccs_len
  · show (net.adjacency_list.set u_id _).length = n_u
    rw [List.length_set]
    exact inv.adj_len
  · show (net.num_followees.set u_id _).length = n_u
    rw [List.length_set]
    exact inv.fee_len
  · show (net.num_followers.set c_id _).length = n_c
    rw [List.length_set]
    exact inv.fer_len
  · intro i hi
    show ((net.users.set u_id _).getD i default).id = i
    by_cases hiu : i = u_id
    · subst hiu
      rw [getD_set_eq_of_lt _ _ _ _ hul]
      exact hid
    · rw [getD_set_of_ne _ _ _ (fun h => hiu h.symm)]
      exact inv.user_id i hi
  · intro j hj
    exact inv.cc_id j hj
  · intro u hu2
    show ∀ x ∈ (net.adjacency_list.set u_id _).getD u [], x < n_c
    intro x hx
    by_cases huu : u = u_id
    · subst huu
      rw [getD_set_eq_of_lt _ _ _ _ hal] at hx
      rcases List.mem_append.mp hx with hx2 | hx2
      · exact inv.adj_mem u hu2 x hx2
      · rw [List.mem_singleton] at hx2
        omega
    · rw [getD_set_of_ne _ _ _ (fun h => huu h.symm)] at hx
      exact inv.adj_mem u hu2 x hx
  · intro c2 hc2
    show (net.num_followers.set c_id _).getD c2 0
      = (net.adjacency_list.set u_id _).countP (fun l => decide (c2 ∈ l))
    by_cases hcc2 : c2 = c_id
    · subst hcc2
      rw [getD_set_eq_of_lt _ _ _ _ hferl,
        countP_set_of_true _ _ _ _ [] hal (decide_eq_false hnm)
          (decide_eq_true (List.mem_append.mpr (Or.inr (List.mem_singleton.mpr rfl)))),
        inv.fer_count c2 hc2]
    · rw [getD_set_of_ne _ _ _ (fun h => hcc2 h.symm),
        countP_set_congr _ _ _ _ []
          (decide_eq_decide.mpr (by simp [List.mem_append, hcc2])),
        inv.fer_count c2 hc2]
  · intro u hu2
    show (net.num_followees.set u_id _).getD u 0
      = ((net.adjacency_list.set u_id _).getD u []).length
    by_cases huu : u = u_id
    · subst huu
      rw [getD_set_eq_of_lt _ _ _ _ hfeel, getD_set_eq_of_lt _ _ _ _ hal,
        List.length_append, inv.fee_count u hu2]
      rfl
    · rw [getD_set_of_ne _ _ _ (fun h => huu h.symm),
        getD_set_of_ne _ _ _ (fun h => huu h.symm)]
      exact inv.fee_count u hu2
  · intro u hu2 hbest
    by_cases huu : u = u_id
    · subst huu
      rw [show ((net.users.set u _).getD u default) = _ from getD_set_eq_of_lt _ _ _ _ hul]
        at hbest
      simp at hbest
    · rw [show ((net.users.set u_id _).getD u default) = net.users.getD u default from
        getD_set_of_ne _ _ _ (fun h => huu h.symm)] at hbest
      show (net.adjacency_list.set u_id _).getD u [] = []
      rw [getD_set_of_ne _ _ _ (fun h => huu h.symm)]
      exact inv.best_none u hu2 hbest
  · intro u hu2 cc hcc
    by_cases huu : u = u_id
    · subst huu
      rw [show ((net.users.set u _).getD u default) = _ from getD_set_eq_of_lt _ _ _ _ hul]
        at hcc
      have hccc : cc = net.CCs.getD c_id default := by
        have := hcc
        simp only [Option.some_inj] at this
        exact this.symm
      show ((net.adjacency_list.set u _).getD u []).getLast? = some cc.id
        ∧ List.Chain' (fun a b => b < a) ((net.adjacency_list.set u _).getD u [])
      rw [getD_set_eq_of_lt _ _ _ _ hal]
      constructor
      · rw [List.getLast?_concat, hccc, hcid]
      · rcases (User.decide_follow_eq_true _ _).mp h2.1 with hb | ⟨b, hb, hlt⟩
        · rw [inv.best_none u hu2 hb]
          exact List.chain'_singleton _
        · obtain ⟨hlast, hchain⟩ := inv.best_some u hu2 b hb
          rw [List.chain'_append]
          refine ⟨hchain, List.chain'_singleton _, ?_⟩
          intro x hx y hy
          rw [hlast, Option.mem_def, Option.some_inj] at hx
          simp only [List.head?_cons, Option.mem_def, Option.some_inj] at hy
          rw [hcid] at hlt
          omega
    · rw [show ((net.users.set u_id _).getD u default) = net.users.getD u default from
        getD_set_of_ne _ _ _ (fun h => huu h.symm)] at hcc
      show ((net.adjacency_list.set u_id _).getD u []).getLast? = some cc.id
        ∧ List.Chain' (fun a b => b < a) ((net.adjacency_list.set u_id _).getD u [])
      rw [getD_set_of_ne _ _ _ (fun h => huu h.symm)]
      exact inv.best_some u hu2 cc hcc

/-- The whole searching-user loop preserves the network invariant as long
as the processed user ids and the drawn creator ids are in range. -/
theorem Network.Inv.followFold_preserved {n_u n_c : ℕ} (recs : ℕ → ℕ) (l : List ℕ)
    (hl : ∀ u ∈ l, u < n_u) (hr : ∀ i, recs i < n_c) :
    ∀ net : Network, Network.Inv n_u n_c net → Network.Inv n_u n_c (net.followFold recs l) := by
  induction l with
  | nil => intro net inv; exact inv
  | cons a l ih =>
    intro net inv
    rw [Network.followFold, List.foldl_cons, ← Network.followFold]
    exact ih (fun u hu => hl u (List.mem_cons_of_mem a hu)) _
      (inv.follow_preserved a (recs a) (hl a (List.mem_cons_self a l)) (hr a))

/-- A fresh platform satisfies the platform invariant. -/
theorem Platform.initState_inv (num_users num_CCs : ℕ) (alphas : List ℝ) (evolution : ℕ)
    (max_follows : ℤ) :
    Platform.Inv (Platform.initState num_users num_CCs alphas evolution max_follows) := by
  constructor
  · exact Network.init_inv num_users num_CCs max_follows
  · intro u hu
    simpa [Platform.initState] using hu
  · intro u hu
    simp only [Platform.initState] at hu ⊢
    rw [getD_replicate_of_lt _ _ _ _ (by simpa using hu)]
  · simp [Platform.initState]

/-- Direct `follow` calls on in-range ids preserve the platform invariant. -/
theorem Platform.Inv.network_follow_preserved {p : Platform} (inv : Platform.Inv p) (u c : ℕ)
    (hu : u < p.num_users) (hc : c < p.num_CCs) :
    Platform.Inv { p with network := p.network.follow u c } := by
  constructor
  · exact inv.net.follow_preserved u c hu hc
  · exact inv.searching_lt
  · exact inv.searching_unset
  · exact inv.found_len

/-- An `iterate()` step whose drawn creators are in range preserves the
platform invariant. -/
theorem Platform.Inv.iterateStep_preserved {p : Platform} (inv : Platform.Inv p)
    (recs : ℕ → ℕ) (hr : ∀ i, recs i < p.num_CCs) :
    Platform.Inv (p.iterateStep recs) := by
  constructor
  · show Network.Inv p.num_users p.num_CCs
      (p.id_searching_users.foldl (Platform.searchStep recs (p.timestep + 1))
        (p.network, p.users_found_best)).1
    rw [searchFold_fst]
    exact Network.Inv.followFold_preserved recs p.id_searching_users inv.searching_lt hr
      p.network inv.net
  · intro u hu
    have : u ∈ p.id_searching_users := (List.filter_sublist _).mem hu
    exact inv.searching_lt u this
  · intro u hu
    show (p.id_searching_users.foldl (Platform.searchStep recs (p.timestep + 1))
      (p.network, p.users_found_best)).2.getD u (-1) = -1
    have := List.mem_filter.mp hu
    exact of_decide_eq_true this.2
  · show (p.id_searching_users.foldl (Platform.searchStep recs (p.timestep + 1))
      (p.network, p.users_found_best)).2.length = p.num_users
    rw [searchFold_snd, foundFold_length]
    exact inv.found_len

/-- Every reachable platform state satisfies the platform invariant. -/
theorem Platform.Reachable.inv {p : Platform} (h : Platform.Reachable p) : Platform.Inv p := by
  induction h with
  | init nu nc alphas ev mf => exact Platform.initState_inv nu nc alphas ev mf
  | follow q u c _ hu hc ih => exact ih.network_follow_preserved u c hu hc
  | step q recs _ hr ih => exact ih.iterateStep_preserved recs hr

/-! ## The recommendation distribution -/

/-- `getD` and `getElem` agree in range. -/
theorem getD_eq_getElem_of_lt {α : Type} (l : List α) (n : ℕ) (d : α) (h : n < l.length) :
    l.getD n d = l[n] := by
  rw [List.getD_eq_getElem?_getD, List.getElem?_eq_getElem h]
  rfl

/-- `getD` through a `map`, in range. -/
theorem getD_map_of_lt {α β : Type} (f : α → β) (l : List α) (c : ℕ) (d : β) (d2 : α)
    (h : c < l.length) : (l.map f).getD c d = f (l.getD c d2) := by
  rw [List.getD_eq_getElem?_getD, List.getElem?_map, List.getElem?_eq_getElem h,
    List.getD_eq_getElem?_getD, List.getElem?_eq_getElem h]
  rfl

/-- Entrywise value of an elementwise vector sum. -/
theorem addVec_getD : ∀ (v w : List ℝ) (c : ℕ), c < v.length → c < w.length →
    (addVec v w).getD c 0 = v.getD c 0 + w.getD c 0 := by
  intro v
  induction v with
  | nil => intro w c h; simp at h
  | cons x v ih =>
    intro w c hc hw
    cases w with
    | nil => simp at hw
    | cons y w =>
      cases c with
      | zero => simp [addVec]
      | succ k =>
        simp only [addVec, List.zipWith_cons_cons, List.getD_cons_succ] at ih ⊢
        exact ih w k (by simpa using hc) (by simpa using hw)

/-- Dividing each summand divides the sum. -/
theorem sum_map_div (l : List ℝ) (g : ℝ → ℝ) (d : ℝ) :
    (l.map (fun a => g a / d)).sum = (l.map g).sum / d := by
  induction l with
  | nil => simp
  | cons a l ih => simp [ih, add_div]

/-- The loop of `recommend` preserves the vector length. -/
theorem recommendAux_length (nf : List ℕ) (den : ℝ) (as : List ℝ) :
    ∀ acc : List ℝ, acc.length = nf.length →
      (as.foldl (fun probs a =>
        addVec probs ((normalizeVec (powWeights nf a)).map (fun x => x / den))) acc).length
        = nf.length := by
  induction as with
  | nil => intro acc hacc; exact hacc
  | cons a as ih =>
    intro acc hacc
    rw [List.foldl_cons]
    apply ih
    rw [addVec, List.length_zipWith, hacc]
    simp [normalizeVec, powWeights]

/-- Entrywise value of the loop of `recommend`: the accumulator plus the
sum of the (already divided) normalized weight-vector entries. -/
theorem recommendAux_getD (nf : List ℕ) (den : ℝ) (as : List ℝ) :
    ∀ acc : List ℝ, acc.length = nf.length → ∀ c, c < nf.length →
      (as.foldl (fun probs a =>
          addVec probs ((normalizeVec (powWeights nf a)).map (fun x => x / den))) acc).getD c 0
        = acc.getD c 0
          + (as.map (fun a => (normalizeVec (powWeights nf a)).getD c 0 / den)).sum := by
  induction as with
  | nil => intro acc hacc c hc; simp
  | cons a as ih =>
    intro acc hacc c hc
    rw [List.foldl_cons]
    have hvlen : ((normalizeVec (powWeights nf a)).map (fun x => x / den)).length
        = nf.length := by
      simp [normalizeVec, powWeights]
    have haddlen :
        (addVec acc ((normalizeVec (powWeights nf a)).map (fun x => x / den))).length
          = nf.length := by
      rw [addVec, List.length_zipWith, hacc, hvlen]
      exact min_self _
    rw [ih _ haddlen c hc,
      addVec_getD _ _ c (by rw [hacc]; exact hc) (by rw [hvlen]; exact hc),
      getD_map_of_lt _ _ c 0 0 (by simp only [normalizeVec, List.length_map, powWeights]; exact hc),
      List.map_cons, List.sum_cons]
    ring

/-- Entrywise value of `recommendProbs`. -/
theorem recommendProbs_getD (nf : List ℕ) (alphas : List ℝ) (c : ℕ) (hc : c < nf.length) :
    (recommendProbs nf alphas).getD c 0
      = (alphas.map (fun a => (normalizeVec (powWeights nf a)).getD c 0)).sum
          / alphas.length := by
  rw [recommendProbs,
    recommendAux_getD nf (alphas.length : ℝ) alphas _ (List.length_replicate _ _) c hc,
    getD_replicate_of_lt _ _ _ _ hc, sum_map_div]
  ring

/-- The length of `recommendProbs` is the number of creators. -/
theorem recommendProbs_length (nf : List ℕ) (alphas : List ℝ) :
    (recommendProbs nf alphas).length = nf.length := by
  rw [recommendProbs]
  exact recommendAux_length nf (alphas.length : ℝ) alphas _ (List.length_replicate _ _)

/-- The weight vector over all-zero follower counts is all ones, whatever
the exponent. -/
theorem powWeights_replicate_zero (m : ℕ) (a : ℝ) :
    powWeights (List.replicate m 0) a = List.replicate m 1 := by
  rw [powWeights, List.map_replicate]
  norm_num [Real.one_rpow]

/-- Normalizing the all-ones vector of length `m` gives the uniform
distribution `1 / m`. -/
theorem normalizeVec_replicate_one (m : ℕ) :
    normalizeVec (List.replicate m (1 : ℝ)) = List.replicate m ((1 : ℝ) / m) := by
  rw [normalizeVec, List.sum_replicate, nsmul_eq_mul, mul_one, List.map_replicate]

/-- The loop of `recommend` computes exactly the spec's distribution: the
uniform average over all alphas of the normalized weight vectors. -/
theorem recommendProbs_eq_spec (nf : List ℕ) (alphas : List ℝ) :
    recommendProbs nf alphas = recommendProbsSpec nf alphas := by
  apply List.ext_getElem
  · rw [recommendProbs_length, recommendProbsSpec, List.length_map, List.length_range]
  · intro n h1 h2
    have hn : n < nf.length := by rwa [recommendProbs_length] at h1
    rw [← getD_eq_getElem_of_lt _ _ 0 h1, ← getD_eq_getElem_of_lt _ _ 0 h2,
      recommendProbs_getD nf alphas n hn, recommendProbsSpec, getD_map_range _ _ _ _ hn]

/-- On all-zero follower counts every entry of `recommendProbs` is the
uniform probability `1 / m`, for any nonempty `alphas`. -/
theorem recommendProbs_uniform (m : ℕ) (alphas : List ℝ) (hne : alphas ≠ []) (c : ℕ)
    (hc : c < m) :
    (recommendProbs (List.replicate m 0) alphas).getD c 0 = 1 / (m : ℝ) := by
  rw [recommendProbs_getD _ _ c (by simpa using hc)]
  have h1 : ∀ a ∈ alphas,
      (normalizeVec (powWeights (List.replicate m 0) a)).getD c 0 = (1 : ℝ) / m := by
    intro a _
    rw [powWeights_replicate_zero, normalizeVec_replicate_one,
      getD_replicate_of_lt _ _ _ _ hc]
  rw [List.map_congr_left h1, List.map_const', List.sum_replicate, nsmul_eq_mul]
  have hlen : ((alphas.length : ℕ) : ℝ) ≠ 0 :=
    Nat.cast_ne_zero.mpr (fun h => hne (List.length_eq_zero.mp h))
  rw [mul_div_cancel_left₀ _ hlen]

/-! ## Frozen-state lemmas for converged users -/

/-- A user outside `id_searching_users` is untouched by one `iterate()`:
its `users_found_best` entry is unchanged and it is not re-added to the
searching set. -/
theorem iterateStep_found_frozen (p : Platform) (recs : ℕ → ℕ) (u : ℕ)
    (hns : u ∉ p.id_searching_users) :
    (p.iterateStep recs).users_found_best.getD u (-1) = p.users_found_best.getD u (-1)
    ∧ u ∉ (p.iterateStep recs).id_searching_users := by
  constructor
  · show (p.id_searching_users.foldl (Platform.searchStep recs (p.timestep + 1))
      (p.network, p.users_found_best)).2.getD u (-1) = _
    rw [searchFold_snd]
    exact foundFold_getD_of_not_mem recs (p.timestep + 1) p.id_searching_users u hns
      p.users_found_best
  · intro hin
    exact hns (List.Sublist.mem hin (List.filter_sublist _))

/-- A user outside `id_searching_users` stays frozen over any further run. -/
theorem iterates_found_frozen (rl : List (ℕ → ℕ)) :
    ∀ (p : Platform) (u : ℕ), u ∉ p.id_searching_users →
      (p.iterates rl).users_found_best.getD u (-1) = p.users_found_best.getD u (-1)
      ∧ u ∉ (p.iterates rl).id_searching_users := by
  induction rl with
  | nil => intro p u hns; exact ⟨rfl, hns⟩
  | cons r rl ih =>
    intro p u hns
    obtain ⟨h1, h2⟩ := iterateStep_found_frozen p r u hns
    obtain ⟨h3, h4⟩ := ih (p.iterateStep r) u h2
    exact ⟨h3.trans h1, h4⟩

/-! ## The claims -/

/-- **C1**: the claim says `Network.follow` records a new edge only when
the followee count is strictly below the cap, so `numFollowees` never
exceeds `maxFollows = k`.  The code tests `num_followees <= max_follows`
instead, so in the run with one user, three creators and `maxFollows = 1`
in which the user is recommended creator 2 and then creator 1, the second
follow is also recorded and `numFollowees[0]` reaches `2 > 1`. -/
theorem cap_exceeded_in_run :
    (((Platform.initState 1 3 [1] 0 1).iterateStep (fun _ => 2)).iterateStep
        (fun _ => 1)).network.num_followees.getD 0 0 = 2
    ∧ (Platform.initState 1 3 [1] 0 1).network.max_follows = some 1 := by
  constructor
  · decide
  · decide

/-- **C2** (counterexample): constructing a platform with empty `alphas`,
zero users, zero creators and negative `maxFollows` does not fail — the
constructor succeeds and records the invalid parameters unchanged, so the
claim that construction fails fast on invalid parameters is false. -/
theorem platform_init_accepts_invalid_params :
    Platform.initE 0 0 [] 0 (-1) = Except.ok (Platform.initState 0 0 [] 0 (-1))
    ∧ (Platform.initState 0 0 [] 0 (-1)).num_alphas = 0
    ∧ (Platform.initState 0 0 [] 0 (-1)).num_users = 0
    ∧ (Platform.initState 0 0 [] 0 (-1)).num_CCs = 0
    ∧ (Platform.initState 0 0 [] 0 (-1)).network.max_follows = some (-1) :=
  ⟨rfl, rfl, rfl, rfl, rfl⟩

/-- **C2** (amended): `Platform.__init__` performs no validation at all —
construction succeeds for every parameter combination, and the parameters
are stored without clamping (`max_follows = 0` becomes the infinite cap,
all other values, including negative ones, are kept as given). -/
theorem platform_init_never_fails (nu nc : ℕ) (alphas : List ℝ) (ev : ℕ) (mf : ℤ) :
    Platform.initE nu nc alphas ev mf = Except.ok (Platform.initState nu nc alphas ev mf)
    ∧ (Platform.initState nu nc alphas ev mf).num_users = nu
    ∧ (Platform.initState nu nc alphas ev mf).num_CCs = nc
    ∧ (Platform.initState nu nc alphas ev mf).alphas = alphas
    ∧ (Platform.initState nu nc alphas ev mf).num_alphas = alphas.length
    ∧ (Platform.initState nu nc alphas ev mf).network.max_follows
        = (if mf = 0 then none else some mf) :=
  ⟨rfl, rfl, rfl, rfl, rfl, rfl⟩

/-- **C3**: during `iterate()`, a searching user whose recommended creator
id is 0 gets `users_found_best[u]` set to the current timestep — whether
or not the cap blocked the follow edge, since the write is unconditional —
and is removed from `id_searching_users` at the end of the iteration. -/
theorem iterate_marks_found_regardless_of_cap (p : Platform) (recs : ℕ → ℕ) (u : ℕ)
    (hmem : u ∈ p.id_searching_users) (hrec : recs u = 0)
    (hlen : u < p.users_found_best.length) :
    (p.iterateStep recs).timestep = p.timestep + 1
    ∧ (p.iterateStep recs).users_found_best.getD u (-1) = ((p.timestep + 1 : ℕ) : ℤ)
    ∧ u ∉ (p.iterateStep recs).id_searching_users := by
  have hfound : (p.iterateStep recs).users_found_best.getD u (-1)
      = ((p.timestep + 1 : ℕ) : ℤ) := by
    show (p.id_searching_users.foldl (Platform.searchStep recs (p.timestep + 1))
      (p.network, p.users_found_best)).2.getD u (-1) = _
    rw [searchFold_snd]
    exact foundFold_getD_of_mem recs (p.timestep + 1) p.id_searching_users u hmem hrec
      p.users_found_best hlen
  refine ⟨rfl, hfound, ?_⟩
  intro hin
  have h2 : (p.iterateStep recs).users_found_best.getD u (-1) = -1 := by
    have hm := List.mem_filter.mp (show u ∈ p.id_searching_users.filter
      (fun i => decide ((p.id_searching_users.foldl
        (Platform.searchStep recs (p.timestep + 1))
        (p.network, p.users_found_best)).2.getD i (-1) = -1)) from hin)
    exact of_decide_eq_true hm.2
  rw [hfound] at h2
  omega

/-- Witness for **C3**: in a fresh 2-user, 2-creator platform where the
draw recommends creator 0 to everyone, user 0 is marked found at
timestep 1 and leaves the searching set. -/
theorem iterate_marks_found_regardless_of_cap_witness :
    0 ∈ (Platform.initState 2 2 [1] 0 0).id_searching_users
    ∧ (((Platform.initState 2 2 [1] 0 0).iterateStep (fun _ => 0)).timestep
          = (Platform.initState 2 2 [1] 0 0).timestep + 1
      ∧ ((Platform.initState 2 2 [1] 0 0).iterateStep
          (fun _ => 0)).users_found_best.getD 0 (-1)
          = (((Platform.initState 2 2 [1] 0 0).timestep + 1 : ℕ) : ℤ)
      ∧ 0 ∉ ((Platform.initState 2 2 [1] 0 0).iterateStep
          (fun _ => 0)).id_searching_users) :=
  ⟨by decide,
    iterate_marks_found_regardless_of_cap (Platform.initState 2 2 [1] 0 0) (fun _ => 0) 0
      (by decide) rfl (by decide)⟩

/-- **C4**: the per-alpha loop of `recommend()` computes exactly the
spec's distribution — the uniform average (weight `1/len(alphas)` each)
of the normalized Laplace-smoothed weight vectors `(numFollowers + 1)^alpha`
— and on all-zero follower counts every creator gets equal probability
`1/num_CCs`, for any nonempty `alphas`. -/
theorem recommend_mixture_and_uniform_prior (num_followers : List ℕ) (alphas : List ℝ) :
    recommendProbs num_followers alphas = recommendProbsSpec num_followers alphas
    ∧ (alphas ≠ [] → ∀ m c, num_followers = List.replicate m 0 → c < m →
        (recommendProbs num_followers alphas).getD c 0 = 1 / (m : ℝ)) := by
  refine ⟨recommendProbs_eq_spec num_followers alphas, ?_⟩
  intro hne m c hnf hc
  subst hnf
  exact recommendProbs_uniform m alphas hne c hc

/-- Witness for **C4**: two creators with zero followers and the single
exponent 1 give each creator probability one half. -/
theorem recommend_mixture_and_uniform_prior_witness :
    ([(1 : ℝ)] ≠ [] ∧ (0 : ℕ) < 2)
    ∧ (recommendProbs (List.replicate 2 0) [(1 : ℝ)]).getD 0 0 = 1 / ((2 : ℕ) : ℝ) :=
  ⟨⟨by simp, by decide⟩,
    (recommend_mixture_and_uniform_prior (List.replicate 2 0) [(1 : ℝ)]).2 (by simp) 2 0
      rfl (by decide)⟩

/-- **C5**: across one `iterate()` (one pair of consecutive timesteps),
every user's `best_followed_CC` id moves along `BestStepRel`: unchanged,
set for the first time, or replaced by a strictly smaller id — so it is
non-increasing over the run. -/
theorem best_followed_id_nonincreasing (p : Platform) (recs : ℕ → ℕ) (u : ℕ) :
    BestStepRel ((p.iterateStep recs).network.bestIdAt u) (p.network.bestIdAt u) := by
  show BestStepRel ((p.id_searching_users.foldl
    (Platform.searchStep recs (p.timestep + 1))
    (p.network, p.users_found_best)).1.bestIdAt u) (p.network.bestIdAt u)
  rw [searchFold_fst]
  exact Network.followFold_bestStep recs p.id_searching_users u p.network

/-- **C6**: at every reachable state, `numFollowers[c]` equals the number
of users whose adjacency list contains `c`, and `numFollowees[u]` equals
the size of `adjacency[u]`. -/
theorem aggregate_counts_consistent (p : Platform) (hp : Platform.Reachable p) :
    (∀ c, c < p.num_CCs →
      p.network.num_followers.getD c 0
        = p.network.adjacency_list.countP (fun l => decide (c ∈ l)))
    ∧ ∀ u, u < p.num_users →
        p.network.num_followees.getD u 0 = (p.network.adjacency_list.getD u []).length :=
  ⟨hp.inv.net.fer_count, hp.inv.net.fee_count⟩

/-- Witness for **C6**: the state reached from a fresh 2-user, 2-creator
platform after one iteration in which everyone is recommended creator 1. -/
theorem aggregate_counts_consistent_witness :
    (∀ c, c < ((Platform.initState 2 2 [1] 0 0).iterateStep (fun _ => 1)).num_CCs →
      ((Platform.initState 2 2 [1] 0 0).iterateStep
          (fun _ => 1)).network.num_followers.getD c 0
        = ((Platform.initState 2 2 [1] 0 0).iterateStep
            (fun _ => 1)).network.adjacency_list.countP (fun l => decide (c ∈ l)))
    ∧ ∀ u, u < ((Platform.initState 2 2 [1] 0 0).iterateStep (fun _ => 1)).num_users →
        ((Platform.initState 2 2 [1] 0 0).iterateStep
            (fun _ => 1)).network.num_followees.getD u 0
          = (((Platform.initState 2 2 [1] 0 0).iterateStep
              (fun _ => 1)).network.adjacency_list.getD u []).length :=
  aggregate_counts_consistent _
    (Platform.Reachable.step (Platform.initState 2 2 [1] 0 0) (fun _ => 1)
      (Platform.Reachable.init 2 2 [1] 0 0) (fun i => by show (1 : ℕ) < 2; decide))

/-- **C7**: on a well-formed network with valid ids, calling `follow(u, c)`
twice in a row yields exactly the state of calling it once — the second
call sees the freshly appended edge (or the same blocking condition) and
is a no-op. -/
theorem follow_idempotent (net : Network) (n_u n_c : ℕ) (inv : Network.Inv n_u n_c net)
    (u_id c_id : ℕ) (hu : u_id < n_u) (hc : c_id < n_c) :
    (net.follow u_id c_id).follow u_id c_id = net.follow u_id c_id := by
  have hid : (net.users.getD u_id default).id = u_id := inv.user_id u_id hu
  have hcid : (net.CCs.getD c_id default).id = c_id := inv.cc_id c_id hc
  have hul : u_id < net.users.length := by rw [inv.users_len]; exact hu
  have hal : u_id < net.adjacency_list.length := by rw [inv.adj_len]; exact hu
  by_cases h1 : net.is_following (net.users.getD u_id default)
      (net.CCs.getD c_id default) = true
  · rw [Network.follow_eq_self_of_following net u_id c_id h1,
      Network.follow_eq_self_of_following net u_id c_id h1]
  by_cases h2 : (net.users.getD u_id default).decide_follow (net.CCs.getD c_id default) = true
      ∧ net.capOk (net.users.getD u_id default) = true
  swap
  · rw [Network.follow_eq_self_of_blocked net u_id c_id h2,
      Network.follow_eq_self_of_blocked net u_id c_id h2]
  · rw [Network.follow_eq_update net u_id c_id h1 h2.1 h2.2, hid, hcid]
    apply Network.follow_eq_self_of_following
    simp only [Network.is_following]
    apply decide_eq_true
    rw [getD_set_eq_of_lt _ _ _ _ hul]
    show (net.CCs.getD c_id default).id ∈ (net.adjacency_list.set u_id
      (net.adjacency_list.getD u_id [] ++ [c_id])).getD (net.users.getD u_id default).id []
    rw [hcid, hid, getD_set_eq_of_lt _ _ _ _ hal]
    exact List.mem_append.mpr (Or.inr (List.mem_singleton.mpr rfl))

/-- Witness for **C7**: following creator 1 twice from a fresh 2-user,
2-creator network equals following it once. -/
theorem follow_idempotent_witness :
    ((Network.init (List.range 2) (List.range 2) 0).follow 0 1).follow 0 1
      = (Network.init (List.range 2) (List.range 2) 0).follow 0 1 :=
  follow_idempotent (Network.init (List.range 2) (List.range 2) 0) 2 2
    (Network.init_inv 2 2 0) 0 1 (by decide) (by decide)

/-- **C8**: at every reachable state, a user's `best_followed_CC` is unset
exactly when its adjacency list is empty, and when set its id is the
minimum of the adjacency list — which is strictly decreasing, with the
best creator as its last element. -/
theorem best_followed_is_min_adjacency (p : Platform) (hp : Platform.Reachable p) (u : ℕ)
    (hu : u < p.num_users) :
    ((p.network.users.getD u default).best_followed_CC = none
       ↔ p.network.adjacency_list.getD u [] = [])
    ∧ ∀ cc, (p.network.users.getD u default).best_followed_CC = some cc →
        cc.id ∈ p.network.adjacency_list.getD u []
        ∧ (∀ x ∈ p.network.adjacency_list.getD u [], cc.id ≤ x)
        ∧ (p.network.adjacency_list.getD u []).getLast? = some cc.id
        ∧ List.Chain' (fun a b => b < a) (p.network.adjacency_list.getD u []) := by
  have inv := hp.inv.net
  constructor
  · constructor
    · exact inv.best_none u hu
    · intro hadj
      cases hbb : (p.network.users.getD u default).best_followed_CC with
      | none => rfl
      | some cc =>
        obtain ⟨hlast, _⟩ := inv.best_some u hu cc hbb
        rw [hadj] at hlast
        simp at hlast
  · intro cc hcc
    obtain ⟨hlast, hchain⟩ := inv.best_some u hu cc hcc
    exact ⟨mem_of_getLast?_eq _ _ hlast,
      chain'_gt_getLast?_le _ hchain cc.id hlast, hlast, hchain⟩

/-- Witness for **C8**: user 0 of the state reached after one iteration
recommending creator 1 to everyone. -/
theorem best_followed_is_min_adjacency_witness :
    0 < ((Platform.initState 2 2 [1] 0 0).iterateStep (fun _ => 1)).num_users
    ∧ (((((Platform.initState 2 2 [1] 0 0).iterateStep
            (fun _ => 1)).network.users.getD 0 default).best_followed_CC = none
          ↔ ((Platform.initState 2 2 [1] 0 0).iterateStep
              (fun _ => 1)).network.adjacency_list.getD 0 [] = [])
      ∧ ∀ cc, (((Platform.initState 2 2 [1] 0 0).iterateStep
            (fun _ => 1)).network.users.getD 0 default).best_followed_CC = some cc →
          cc.id ∈ ((Platform.initState 2 2 [1] 0 0).iterateStep
              (fun _ => 1)).network.adjacency_list.getD 0 []
          ∧ (∀ x ∈ ((Platform.initState 2 2 [1] 0 0).iterateStep
              (fun _ => 1)).network.adjacency_list.getD 0 [], cc.id ≤ x)
          ∧ (((Platform.initState 2 2 [1] 0 0).iterateStep
              (fun _ => 1)).network.adjacency_list.getD 0 []).getLast? = some cc.id
          ∧ List.Chain' (fun a b => b < a)
              (((Platform.initState 2 2 [1] 0 0).iterateStep
                (fun _ => 1)).network.adjacency_list.getD 0 [])) :=
  ⟨by decide,
    best_followed_is_min_adjacency _
      (Platform.Reachable.step (Platform.initState 2 2 [1] 0 0) (fun _ => 1)
        (Platform.Reachable.init 2 2 [1] 0 0) (fun i => by show (1 : ℕ) < 2; decide)) 0
      (by decide)⟩

/-- **C9**: once a reachable state has `users_found_best[u]` different
from `-1`, the entry keeps its value over any further sequence of
iterations and `u` never reappears in `id_searching_users`. -/
theorem found_timestep_permanent (p : Platform) (hp : Platform.Reachable p) (u : ℕ)
    (h : p.users_found_best.getD u (-1) ≠ -1) :
    u ∉ p.id_searching_users
    ∧ ∀ rl : List (ℕ → ℕ),
        (p.iterates rl).users_found_best.getD u (-1) = p.users_found_best.getD u (-1)
        ∧ u ∉ (p.iterates rl).id_searching_users := by
  have hns : u ∉ p.id_searching_users := fun hin => h (hp.inv.searching_unset u hin)
  exact ⟨hns, fun rl => iterates_found_frozen rl p u hns⟩

/-- Witness for **C9**: after one iteration of a 1-user, 1-creator
platform recommending creator 0, user 0 is marked found and stays so. -/
theorem found_timestep_permanent_witness :
    ((Platform.initState 1 1 [1] 0 0).iterateStep
        (fun _ => 0)).users_found_best.getD 0 (-1) ≠ -1
    ∧ (0 ∉ ((Platform.initState 1 1 [1] 0 0).iterateStep (fun _ => 0)).id_searching_users
      ∧ ∀ rl : List (ℕ → ℕ),
          ((((Platform.initState 1 1 [1] 0 0).iterateStep
              (fun _ => 0)).iterates rl).users_found_best.getD 0 (-1)
            = ((Platform.initState 1 1 [1] 0 0).iterateStep
                (fun _ => 0)).users_found_best.getD 0 (-1))
          ∧ 0 ∉ (((Platform.initState 1 1 [1] 0 0).iterateStep
              (fun _ => 0)).iterates rl).id_searching_users) :=
  ⟨by decide,
    found_timestep_permanent _
      (Platform.Reachable.step (Platform.initState 1 1 [1] 0 0) (fun _ => 0)
        (Platform.Reachable.init 1 1 [1] 0 0) (fun i => by show (0 : ℕ) < 1; decide)) 0
      (by decide)⟩

/-- **C10**: an `iterate()` on a state with no searching users still
increments the timestep and consumes `num_users` random samples, but
leaves the network (adjacency, both counters, every `best_followed_CC`)
and `users_found_best` unchanged and returns `True`. -/
theorem iterate_converged_frame (p : Platform) (recs : ℕ → ℕ)
    (h : p.id_searching_users = []) :
    (p.iterate recs).1.network = p.network
    ∧ (p.iterate recs).1.users_found_best = p.users_found_best
    ∧ (p.iterate recs).1.timestep = p.timestep + 1
    ∧ (p.iterate recs).1.gen_offset = p.gen_offset + p.num_users
    ∧ (p.iterate recs).1.id_searching_users = []
    ∧ (p.iterate recs).2 = true := by
  simp [Platform.iterate, Platform.iterateStep, Platform.check_convergence, h]

/-- Witness for **C10**: a platform constructed with zero users has an
empty searching set; one iterate changes only the timestep and the
sample counter. -/
theorem iterate_converged_frame_witness :
    (Platform.initState 0 2 [1] 0 0).id_searching_users = []
    ∧ (((Platform.initState 0 2 [1] 0 0).iterate (fun _ => 0)).1.network
          = (Platform.initState 0 2 [1] 0 0).network
      ∧ ((Platform.initState 0 2 [1] 0 0).iterate (fun _ => 0)).1.users_found_best
          = (Platform.initState 0 2 [1] 0 0).users_found_best
      ∧ ((Platform.initState 0 2 [1] 0 0).iterate (fun _ => 0)).1.timestep
          = (Platform.initState 0 2 [1] 0 0).timestep + 1
      ∧ ((Platform.initState 0 2 [1] 0 0).iterate (fun _ => 0)).1.gen_offset
          = (Platform.initState 0 2 [1] 0 0).gen_offset
              + (Platform.initState 0 2 [1] 0 0).num_users
      ∧ ((Platform.initState 0 2 [1] 0 0).iterate (fun _ => 0)).1.id_searching_users = []
      ∧ ((Platform.initState 0 2 [1] 0 0).iterate (fun _ => 0)).2 = true) :=
  ⟨by decide,
    iterate_converged_frame (Platform.initState 0 2 [1] 0 0) (fun _ => 0) (by decide)⟩
